import Mathlib

/-
Verification of the MDC block-component bracket-matching core
(`findMatchingBrackets` and its helpers).  Lines are embedded as `List Char`;
a document is a line accessor plus a line count, mirroring the
`TextDocument` interface.  The regular expressions of the source are
translated into explicit scans over the character list:

  - `^\s*(:{2,})([\w-]+)`         (cursor-side opening detection)
  - `^\s*(:{2,})\s*$`             (cursor-side closing detection)
  - `^\s*(?:`{3,}|~{3,})`         (fence marker, tested on trimmed line)
  - `^(:{2,})([\w-]+)`            (scanner opening, on trimmed line)
  - `^(:{2,})$`                   (scanner closing, on trimmed line)
  - `(:{2,})([\w-]+)` unanchored  (range of an opening bracket)
  - `(:{2,})$` right-anchored     (range of a closing bracket)

JavaScript `\s` (and `String.prototype.trim`) cover the whitespace and
line-terminator characters listed in `isJsWhitespace`; `\w` is
`[A-Za-z0-9_]`.
-/

namespace MonarchMdc

/-- The character class of JavaScript `\s` (WhiteSpace ∪ LineTerminator). -/
def isJsWhitespace (c : Char) : Bool :=
  c == ' ' || c == '\t' || c == '\n' || c == '\r' || c == '\x0b' || c == '\x0c' ||
  c == '\u00A0' || c == '\u1680' || c == '\u2000' || c == '\u2001' ||
  c == '\u2002' || c == '\u2003' || c == '\u2004' || c == '\u2005' ||
  c == '\u2006' || c == '\u2007' || c == '\u2008' || c == '\u2009' ||
  c == '\u200A' || c == '\u2028' || c == '\u2029' || c == '\u202F' ||
  c == '\u205F' || c == '\u3000' || c == '\uFEFF'

/-- The character class of JavaScript `[\w-]` (word characters or hyphen). -/
def isNameChar (c : Char) : Bool :=
  c.isAlpha || c.isDigit || c == '_' || c == '-'

/-- Length of the longest prefix of `l` whose characters satisfy `p`. -/
def countLeading (p : Char → Bool) (l : List Char) : Nat :=
  (l.takeWhile p).length

/-- JavaScript `String.prototype.trim`. -/
def trimLine (l : List Char) : List Char :=
  ((l.dropWhile isJsWhitespace).reverse.dropWhile isJsWhitespace).reverse

/-- The `TextDocument` interface: line accessor plus line count. -/
structure Document where
  getLine : Nat → List Char
  lineCount : Nat

/-- A cursor position (zero-based line and column). -/
structure Position where
  line : Nat
  column : Nat
deriving DecidableEq

/-- A text range (zero-based, single line in all produced values). -/
structure Range where
  startLine : Nat
  startColumn : Nat
  endLine : Nat
  endColumn : Nat
deriving DecidableEq

/-- A matched pair of bracket ranges with the shared colon count. -/
structure BracketMatch where
  opening : Range
  closing : Range
  colonCount : Nat
deriving DecidableEq

/-- Internal representation of a block component bracket. -/
structure BracketBlock where
  line : Nat
  colonCount : Nat
  isOpening : Bool
  tagName : Option (List Char)
deriving DecidableEq

/-- Builds a `Document` from a list of lines, as the test helper does
(`getLine` falls back to the empty string out of range). -/
def mkDoc (lines : List String) : Document :=
  ⟨fun n => (lines.getD n "").toList, lines.length⟩

/-- Result of `lineContent.match(/^\s*(:{2,})([\w-]+)/)`:
colon start (= length of the leading whitespace), colon count, name length. -/
def matchOpeningAnchored (l : List Char) : Option (Nat × Nat × Nat) :=
  let ws := countLeading isJsWhitespace l
  let afterWs := l.drop ws
  let colons := countLeading (fun c => c == ':') afterWs
  let nameLen := countLeading isNameChar (afterWs.drop colons)
  if 2 ≤ colons ∧ 1 ≤ nameLen then some (ws, colons, nameLen) else none

/-- Result of `lineContent.match(/^\s*(:{2,})\s*$/)`: colon start and count. -/
def matchClosingAnchored (l : List Char) : Option (Nat × Nat) :=
  let ws := countLeading isJsWhitespace l
  let afterWs := l.drop ws
  let colons := countLeading (fun c => c == ':') afterWs
  if 2 ≤ colons ∧ (afterWs.drop colons).all isJsWhitespace then
    some (ws, colons)
  else none

/-- The closing-bracket half of `detectBracketAtPosition`. -/
def detectClosingAtPosition (lineContent : List Char) (column : Nat) : Option Nat :=
  match matchClosingAnchored lineContent with
  | some (colonStart, colonCount) =>
    if colonStart ≤ column ∧ column ≤ colonStart + colonCount then
      some colonCount
    else none
  | none => none

/-- Detects if the cursor is adjacent to a `::` marker; returns the colon
count.  Mirrors `detectBracketAtPosition` (the opening pattern is tried
first and falls through to the closing pattern). -/
def detectBracketAtPosition (lineContent : List Char) (column : Nat) : Option Nat :=
  match matchOpeningAnchored lineContent with
  | some (colonStart, colonCount, nameLen) =>
    if colonStart ≤ column ∧ column ≤ colonStart + colonCount + nameLen then
      some colonCount
    else detectClosingAtPosition lineContent column
  | none => detectClosingAtPosition lineContent column

/-- Test of `/^\s*(?:`{3,}|~{3,})/` on a line. -/
def isFenceLine (t : List Char) : Bool :=
  let afterWs := t.dropWhile isJsWhitespace
  decide (3 ≤ countLeading (fun c => c == '`') afterWs) ||
  decide (3 ≤ countLeading (fun c => c == '~') afterWs)

/-- Scanner opening pattern `^(:{2,})([\w-]+)` on the trimmed line:
colon count and tag name. -/
def matchScanOpening (t : List Char) : Option (Nat × List Char) :=
  let colons := countLeading (fun c => c == ':') t
  let name := (t.drop colons).takeWhile isNameChar
  if 2 ≤ colons ∧ 1 ≤ name.length then some (colons, name) else none

/-- Scanner closing pattern `^(:{2,})$` on the trimmed line: colon count. -/
def matchScanClosing (t : List Char) : Option Nat :=
  let colons := countLeading (fun c => c == ':') t
  if 2 ≤ colons ∧ colons = t.length then some colons else none

/-- The loop body of `scanAllBrackets`, iterating over the given line
numbers while carrying the `insideCodeBlock` flag. -/
def scanLines (doc : Document) (insideCodeBlock : Bool) : List Nat → List BracketBlock
  | [] => []
  | n :: rest =>
    let trimmed := trimLine (doc.getLine n)
    if isFenceLine trimmed then
      scanLines doc (!insideCodeBlock) rest
    else if insideCodeBlock then
      scanLines doc insideCodeBlock rest
    else
      match matchScanOpening trimmed with
      | some (colons, name) =>
        ⟨n, colons, true, some name⟩ :: scanLines doc insideCodeBlock rest
      | none =>
        match matchScanClosing trimmed with
        | some colons =>
          ⟨n, colons, false, none⟩ :: scanLines doc insideCodeBlock rest
        | none => scanLines doc insideCodeBlock rest

/-- Scans the entire document for all block component brackets. -/
def scanAllBrackets (doc : Document) : List BracketBlock :=
  scanLines doc false (List.range doc.lineCount)

/-- Forward scan of `findMatchingBracket` (cursor on an opening bracket).
The head of `stack` is the most recently pushed element. -/
def findMatchingForward : List BracketBlock → List BracketBlock → Option BracketBlock
  | _, [] => none
  | stack, b :: rest =>
    if b.isOpening then
      findMatchingForward (b :: stack) rest
    else
      match stack with
      | [] => findMatchingForward [] rest
      | top :: stackRest =>
        if top.colonCount = b.colonCount then
          match stackRest with
          | [] => some b
          | _ :: _ => findMatchingForward stackRest rest
        else findMatchingForward stack rest

/-- Backward scan of `findMatchingBracket` (cursor on a closing bracket);
the list argument is the bracket prefix in reverse order. -/
def findMatchingBackward : List BracketBlock → List BracketBlock → Option BracketBlock
  | _, [] => none
  | stack, b :: rest =>
    if !b.isOpening then
      findMatchingBackward (b :: stack) rest
    else
      match stack with
      | [] => findMatchingBackward [] rest
      | top :: stackRest =>
        if top.colonCount = b.colonCount then
          match stackRest with
          | [] => some b
          | _ :: _ => findMatchingBackward stackRest rest
        else findMatchingBackward stack rest

/-- Finds the matching bracket for the bracket at `currentIndex`, using
stack-based matching with exact colon-count comparison. -/
def findMatchingBracket (brackets : List BracketBlock) (currentIndex : Nat) :
    Option BracketBlock :=
  match brackets[currentIndex]? with
  | none => none
  | some currentBracket =>
    if currentBracket.isOpening then
      findMatchingForward [currentBracket] (brackets.drop (currentIndex + 1))
    else
      findMatchingBackward [currentBracket] ((brackets.take currentIndex).reverse)

/-- Leftmost match of the unanchored `(:{2,})([\w-]+)`: start column and
total match length. -/
def findOpeningRange : List Char → Option (Nat × Nat)
  | [] => none
  | c :: rest =>
    let colons := countLeading (fun ch => ch == ':') (c :: rest)
    let nameLen := countLeading isNameChar ((c :: rest).drop colons)
    if 2 ≤ colons ∧ 1 ≤ nameLen then some (0, colons + nameLen)
    else (findOpeningRange rest).map (fun p => (p.1 + 1, p.2))

/-- Length of the trailing colon run (the `(:{2,})$` match when ≥ 2). -/
def trailingColonRun (l : List Char) : Nat :=
  countLeading (fun c => c == ':') l.reverse

/-- The line-level body of `createBracketRange`; falls back to the entire
line when the expected substring cannot be located. -/
def bracketRangeOfLine (bracket : BracketBlock) (lineContent : List Char) : Range :=
  if bracket.isOpening then
    match findOpeningRange lineContent with
    | some (startColumn, len) =>
      ⟨bracket.line, startColumn, bracket.line, startColumn + len⟩
    | none => ⟨bracket.line, 0, bracket.line, lineContent.length⟩
  else
    if 2 ≤ trailingColonRun lineContent then
      ⟨bracket.line, lineContent.length - trailingColonRun lineContent,
        bracket.line, lineContent.length⟩
    else ⟨bracket.line, 0, bracket.line, lineContent.length⟩

/-- Creates a `Range` for a bracket, re-reading its source line. -/
def createBracketRange (doc : Document) (bracket : BracketBlock) : Range :=
  bracketRangeOfLine bracket (doc.getLine bracket.line)

/-- `Array.prototype.findIndex` on the bracket list, comparing lines. -/
def findBracketIdx (line : Nat) : List BracketBlock → Option Nat
  | [] => none
  | b :: rest =>
    if b.line = line then some 0 else (findBracketIdx line rest).map (· + 1)

/-- The part of `findMatchingBrackets` that runs after the cursor-side
detection succeeded; it depends only on the cursor's line. -/
def findMatchingBracketsCore (doc : Document) (line : Nat) : Option BracketMatch :=
  let brackets := scanAllBrackets doc
  if brackets.isEmpty then none
  else
    match findBracketIdx line brackets with
    | none => none
    | some currentBracketIndex =>
      match brackets[currentBracketIndex]? with
      | none => none
      | some currentBracket =>
        match findMatchingBracket brackets currentBracketIndex with
        | none => none
        | some matchingBracket =>
          some
            { opening := createBracketRange doc
                (if currentBracket.isOpening then currentBracket else matchingBracket)
              closing := createBracketRange doc
                (if currentBracket.isOpening then matchingBracket else currentBracket)
              colonCount := currentBracket.colonCount }

/-- Finds matching MDC block component brackets when the cursor is adjacent
to a `::` marker. -/
def findMatchingBrackets (doc : Document) (pos : Position) : Option BracketMatch :=
  match detectBracketAtPosition (doc.getLine pos.line) pos.column with
  | none => none
  | some _ => findMatchingBracketsCore doc pos.line

/-! A document whose line accessor can fail, modelling a `getLine`
implementation that throws; the pipeline below mirrors
`findMatchingBrackets` with the `try`/`catch` made explicit. -/

/-- A `TextDocument` whose `getLine` may throw. -/
structure EDocument where
  getLine : Nat → Except String (List Char)
  lineCount : Nat

/-- `scanAllBrackets` over a fallible accessor, propagating the fault. -/
def scanLinesE (doc : EDocument) (insideCodeBlock : Bool) :
    List Nat → Except String (List BracketBlock)
  | [] => pure []
  | n :: rest => do
    let lineContent ← doc.getLine n
    let trimmed := trimLine lineContent
    if isFenceLine trimmed then
      scanLinesE doc (!insideCodeBlock) rest
    else if insideCodeBlock then
      scanLinesE doc insideCodeBlock rest
    else
      match matchScanOpening trimmed with
      | some (colons, name) => do
        let brackets ← scanLinesE doc insideCodeBlock rest
        pure (⟨n, colons, true, some name⟩ :: brackets)
      | none =>
        match matchScanClosing trimmed with
        | some colons => do
          let brackets ← scanLinesE doc insideCodeBlock rest
          pure (⟨n, colons, false, none⟩ :: brackets)
        | none => scanLinesE doc insideCodeBlock rest

/-- `createBracketRange` over a fallible accessor. -/
def createBracketRangeE (doc : EDocument) (bracket : BracketBlock) :
    Except String Range := do
  let lineContent ← doc.getLine bracket.line
  pure (bracketRangeOfLine bracket lineContent)

/-- The body of the `try` block of `findMatchingBrackets`: any fault of the
document accessor is propagated as an `Except.error`. -/
def findMatchingBracketsTry (doc : EDocument) (pos : Position) :
    Except String (Option BracketMatch) := do
  let lineContent ← doc.getLine pos.line
  match detectBracketAtPosition lineContent pos.column with
  | none => pure none
  | some _ => do
    let brackets ← scanLinesE doc false (List.range doc.lineCount)
    if brackets.isEmpty then pure none
    else
      match findBracketIdx pos.line brackets with
      | none => pure none
      | some currentBracketIndex =>
        match brackets[currentBracketIndex]? with
        | none => pure none
        | some currentBracket =>
          match findMatchingBracket brackets currentBracketIndex with
          | none => pure none
          | some matchingBracket => do
            let ro ← createBracketRangeE doc
              (if currentBracket.isOpening then currentBracket else matchingBracket)
            let rc ← createBracketRangeE doc
              (if currentBracket.isOpening then matchingBracket else currentBracket)
            pure (some ⟨ro, rc, currentBracket.colonCount⟩)

/-- `findMatchingBrackets` over a fallible accessor: the `catch` converts
any internal fault into a `none` result. -/
def findMatchingBracketsE (doc : EDocument) (pos : Position) : Option BracketMatch :=
  match findMatchingBracketsTry doc pos with
  | .ok r => r
  | .error _ => none

/-! Analysis devices for the stack-based matcher.  When every bracket has
the same colon count, only the stack height matters; `findFi` computes the
index at which the forward scan stops, and `flipRole` exchanges the roles
so that the backward scan becomes a forward scan of the reversed prefix. -/

/-- Exchanges the opening/closing role of a bracket. -/
def flipRole (b : BracketBlock) : BracketBlock :=
  { b with isOpening := !b.isOpening }

/-- Height-only forward scan: returns the index where the matcher stops,
given the current stack height. -/
def findFi : Nat → List BracketBlock → Option Nat
  | _, [] => none
  | s, b :: rest =>
    if b.isOpening then (findFi (s + 1) rest).map (· + 1)
    else
      match s with
      | 0 => (findFi 0 rest).map (· + 1)
      | 1 => some 0
      | s' + 2 => (findFi (s' + 1) rest).map (· + 1)

/-- Number of opening brackets in a list. -/
def opensCount (l : List BracketBlock) : Nat :=
  (l.filter (fun b => b.isOpening)).length

/-- Number of closing brackets in a list. -/
def closesCount (l : List BracketBlock) : Nat :=
  (l.filter (fun b => !b.isOpening)).length

/-! Character-class lemmas. -/

lemma mem_wsChars_of_isJsWhitespace {c : Char} (h : isJsWhitespace c = true) :
    c ∈ [' ', '\t', '\n', '\r', '\x0b', '\x0c', '\u00A0', '\u1680', '\u2000',
      '\u2001', '\u2002', '\u2003', '\u2004', '\u2005', '\u2006', '\u2007',
      '\u2008', '\u2009', '\u200A', '\u2028', '\u2029', '\u202F', '\u205F',
      '\u3000', '\uFEFF'] := by
  simp only [isJsWhitespace, Bool.or_eq_true, beq_iff_eq] at h
  simp only [List.mem_cons, List.not_mem_nil, or_false]
  tauto

lemma not_nameChar_of_ws {c : Char} (h : isJsWhitespace c = true) :
    isNameChar c = false := by
  have hm := mem_wsChars_of_isJsWhitespace h
  fin_cases hm <;> decide

lemma not_colon_of_ws {c : Char} (h : isJsWhitespace c = true) :
    (c == ':') = false := by
  have hm := mem_wsChars_of_isJsWhitespace h
  fin_cases hm <;> decide

lemma not_colon_of_nameChar {c : Char} (h : isNameChar c = true) :
    (c == ':') = false := by
  cases hc : (c == ':') with
  | false => rfl
  | true => exact absurd (eq_of_beq hc ▸ h) (by decide)

lemma not_ws_of_nameChar {c : Char} (h : isNameChar c = true) :
    isJsWhitespace c = false := by
  cases hw : isJsWhitespace c with
  | false => rfl
  | true => rw [not_nameChar_of_ws hw] at h; exact Bool.noConfusion h

lemma not_ws_of_colon {c : Char} (h : (c == ':') = true) :
    isJsWhitespace c = false := by
  cases hw : isJsWhitespace c with
  | false => rfl
  | true => rw [not_colon_of_ws hw] at h; exact Bool.noConfusion h

/-! Lemmas about `countLeading`. -/

lemma countLeading_append_all {p : Char → Bool} {a : List Char} (b : List Char)
    (h : ∀ c ∈ a, p c = true) :
    countLeading p (a ++ b) = a.length + countLeading p b := by
  induction a with
  | nil => simp
  | cons x xs ih =>
    have hx : p x = true := h x (List.mem_cons_self x xs)
    have hxs : ∀ c ∈ xs, p c = true := fun c hc => h c (List.mem_cons_of_mem x hc)
    simp only [countLeading, List.cons_append, List.takeWhile_cons, hx, if_true,
      List.length_cons] at *
    rw [ih hxs]
    omega

lemma countLeading_eq_zero_of_head {p : Char → Bool} {b : List Char}
    (h : ∀ c, b.head? = some c → p c = false) : countLeading p b = 0 := by
  cases b with
  | nil => rfl
  | cons x xs => simp [countLeading, List.takeWhile_cons, h x rfl]

lemma all_of_countLeading_eq_length {p : Char → Bool} :
    ∀ {t : List Char}, countLeading p t = t.length → ∀ c ∈ t, p c = true := by
  intro t
  induction t with
  | nil => intro _ c hc; exact absurd hc (List.not_mem_nil c)
  | cons x xs ih =>
    intro h c hc
    cases hx : p x with
    | true =>
      simp only [countLeading, List.takeWhile_cons, hx, if_true, List.length_cons] at h
      rcases List.mem_cons.mp hc with rfl | hmem
      · exact hx
      · exact ih (Nat.add_right_cancel h) c hmem
    | false =>
      simp only [countLeading, List.takeWhile_cons, hx] at h
      simp at h

lemma countLeading_le_length {p : Char → Bool} (l : List Char) :
    countLeading p l ≤ l.length :=
  (List.takeWhile_sublist p).length_le

lemma replicate_ge_countLeading {p : Char → Bool} {c : Char} (hc : p c = true)
    (k : Nat) (s : List Char) :
    k ≤ countLeading p (List.replicate k c ++ s) := by
  rw [countLeading_append_all s (fun x hx => by
    rw [List.eq_of_mem_replicate hx]; exact hc)]
  simp [List.length_replicate]

lemma dropWhile_eq_self_of_head {p : Char → Bool} {l : List Char}
    (h : ∀ c, l.head? = some c → p c = false) : l.dropWhile p = l := by
  cases l with
  | nil => rfl
  | cons x xs => simp [List.dropWhile_cons, h x rfl]

/-! The range builder always reports the bracket's own line. -/

lemma bracketRangeOfLine_startLine (b : BracketBlock) (l : List Char) :
    (bracketRangeOfLine b l).startLine = b.line := by
  unfold bracketRangeOfLine
  split
  · split
    · rfl
    · rfl
  · split
    · rfl
    · rfl

lemma createBracketRange_startLine (doc : Document) (b : BracketBlock) :
    (createBracketRange doc b).startLine = b.line :=
  bracketRangeOfLine_startLine b (doc.getLine b.line)

/-! Lemmas about `findBracketIdx`. -/

lemma findBracketIdx_some {line : Nat} :
    ∀ {l : List BracketBlock} {i : Nat}, findBracketIdx line l = some i →
      ∃ b, l[i]? = some b ∧ b.line = line := by
  intro l
  induction l with
  | nil => intro i h; exact Option.noConfusion h
  | cons x xs ih =>
    intro i h
    unfold findBracketIdx at h
    split at h
    · cases h
      exact ⟨x, by simp, by assumption⟩
    · cases hf : findBracketIdx line xs with
      | none => rw [hf] at h; exact Option.noConfusion h
      | some j =>
        rw [hf] at h
        cases h
        obtain ⟨b, hb, hbl⟩ := ih hf
        exact ⟨b, by simpa using hb, hbl⟩

lemma findBracketIdx_of_pairwise :
    ∀ {l : List BracketBlock} {j : Nat} {b : BracketBlock},
      l.Pairwise (fun a b => a.line < b.line) → l[j]? = some b →
      findBracketIdx b.line l = some j := by
  intro l
  induction l with
  | nil => intro j b _ h; rw [List.getElem?_nil] at h; exact Option.noConfusion h
  | cons x xs ih =>
    intro j b hpw hj
    rcases List.pairwise_cons.mp hpw with ⟨hhead, htail⟩
    cases j with
    | zero =>
      rw [List.getElem?_cons_zero] at hj
      cases hj
      simp [findBracketIdx]
    | succ j' =>
      rw [List.getElem?_cons_succ] at hj
      have hmem : b ∈ xs := List.getElem?_mem hj
      have hlt : x.line < b.line := hhead b hmem
      have hne : ¬(x.line = b.line) := by omega
      rw [findBracketIdx, if_neg hne, ih htail hj]
      rfl

/-! Scanner ordering: produced bracket lines form a sublist of the scanned
line numbers, hence are strictly increasing. -/

lemma scanLines_lines_sublist (doc : Document) :
    ∀ (ns : List Nat) (inside : Bool),
      ((scanLines doc inside ns).map (fun b => b.line)).Sublist ns := by
  intro ns
  induction ns with
  | nil => intro inside; simp [scanLines]
  | cons n rest ih =>
    intro inside
    rw [scanLines]
    split
    · exact (ih (!inside)).cons n
    · split
      · exact (ih inside).cons n
      · split
        · rename_i colons name _
          simpa using (ih inside).cons₂ n
        · split
          · rename_i colons _
            simpa using (ih inside).cons₂ n
          · exact (ih inside).cons n

lemma scanLines_line_mem (doc : Document) {ns : List Nat} {inside : Bool}
    {b : BracketBlock} (h : b ∈ scanLines doc inside ns) : b.line ∈ ns :=
  (scanLines_lines_sublist doc ns inside).subset (List.mem_map_of_mem _ h)

lemma scanAllBrackets_pairwise (doc : Document) :
    (scanAllBrackets doc).Pairwise (fun a b => a.line < b.line) := by
  have hpw :
      ((scanLines doc false (List.range doc.lineCount)).map
        (fun b => b.line)).Pairwise (· < ·) :=
    (List.pairwise_lt_range _).sublist
      (scanLines_lines_sublist doc (List.range doc.lineCount) false)
  rw [List.pairwise_map] at hpw
  exact hpw

/-! Characterization of a successful end-to-end query. -/

lemma core_eq_some_iff {doc : Document} {line : Nat} {M : BracketMatch} :
    findMatchingBracketsCore doc line = some M ↔
      ∃ ci cur m, findBracketIdx line (scanAllBrackets doc) = some ci ∧
        (scanAllBrackets doc)[ci]? = some cur ∧
        findMatchingBracket (scanAllBrackets doc) ci = some m ∧
        M = ⟨createBracketRange doc (if cur.isOpening then cur else m),
             createBracketRange doc (if cur.isOpening then m else cur),
             cur.colonCount⟩ := by
  unfold findMatchingBracketsCore
  simp only []
  constructor
  · intro h
    split at h
    · exact Option.noConfusion h
    · split at h
      · exact Option.noConfusion h
      · split at h
        · exact Option.noConfusion h
        · split at h
          · exact Option.noConfusion h
          · cases h
            exact ⟨_, _, _, by assumption, by assumption, by assumption, rfl⟩
  · rintro ⟨ci, cur, m, hidx, hcur, hm, rfl⟩
    have hne : scanAllBrackets doc ≠ [] := by
      intro hnil
      rw [hnil] at hidx
      exact Option.noConfusion hidx
    simp [List.isEmpty_iff, hne, hidx, hcur, hm]

/-! The stack scans return a bracket of the scanned segment, of the
opposite role, with the colon count of the bracket at the stack's bottom. -/

lemma findMatchingForward_spec :
    ∀ {l : List BracketBlock} (stack : List BracketBlock) {cur b : BracketBlock},
      findMatchingForward (stack ++ [cur]) l = some b →
      b ∈ l ∧ b.isOpening = false ∧ b.colonCount = cur.colonCount := by
  intro l
  induction l with
  | nil => intro stack cur b h; exact Option.noConfusion h
  | cons x rest ih =>
    intro stack cur b h
    simp only [findMatchingForward] at h
    split at h
    · obtain ⟨hm, ho, hc⟩ := ih (x :: stack) (by simpa [List.cons_append] using h)
      exact ⟨List.mem_cons_of_mem _ hm, ho, hc⟩
    · rename_i hxo
      have hxo' : x.isOpening = false := by simpa using hxo
      cases stack with
      | nil =>
        simp only [List.nil_append] at h
        split at h
        · cases h
          rename_i hcc
          exact ⟨List.mem_cons_self _ _, hxo', hcc.symm⟩
        · obtain ⟨hm, ho, hc⟩ := ih [] (by simpa using h)
          exact ⟨List.mem_cons_of_mem _ hm, ho, hc⟩
      | cons y ys =>
        simp only [List.cons_append] at h
        split at h
        · cases ys with
          | nil =>
            obtain ⟨hm, ho, hc⟩ := ih [] (by simpa using h)
            exact ⟨List.mem_cons_of_mem _ hm, ho, hc⟩
          | cons z zs =>
            obtain ⟨hm, ho, hc⟩ := ih (z :: zs) (by simpa [List.cons_append] using h)
            exact ⟨List.mem_cons_of_mem _ hm, ho, hc⟩
        · obtain ⟨hm, ho, hc⟩ := ih (y :: ys) (by simpa [List.cons_append] using h)
          exact ⟨List.mem_cons_of_mem _ hm, ho, hc⟩

lemma findMatchingBackward_spec :
    ∀ {l : List BracketBlock} (stack : List BracketBlock) {cur b : BracketBlock},
      findMatchingBackward (stack ++ [cur]) l = some b →
      b ∈ l ∧ b.isOpening = true ∧ b.colonCount = cur.colonCount := by
  intro l
  induction l with
  | nil => intro stack cur b h; exact Option.noConfusion h
  | cons x rest ih =>
    intro stack cur b h
    simp only [findMatchingBackward] at h
    split at h
    · obtain ⟨hm, ho, hc⟩ := ih (x :: stack) (by simpa [List.cons_append] using h)
      exact ⟨List.mem_cons_of_mem _ hm, ho, hc⟩
    · rename_i hxo
      have hxo' : x.isOpening = true := by simpa using hxo
      cases stack with
      | nil =>
        simp only [List.nil_append] at h
        split at h
        · cases h
          rename_i hcc
          exact ⟨List.mem_cons_self _ _, hxo', hcc.symm⟩
        · obtain ⟨hm, ho, hc⟩ := ih [] (by simpa using h)
          exact ⟨List.mem_cons_of_mem _ hm, ho, hc⟩
      | cons y ys =>
        simp only [List.cons_append] at h
        split at h
        · cases ys with
          | nil =>
            obtain ⟨hm, ho, hc⟩ := ih [] (by simpa using h)
            exact ⟨List.mem_cons_of_mem _ hm, ho, hc⟩
          | cons z zs =>
            obtain ⟨hm, ho, hc⟩ := ih (z :: zs) (by simpa [List.cons_append] using h)
            exact ⟨List.mem_cons_of_mem _ hm, ho, hc⟩
        · obtain ⟨hm, ho, hc⟩ := ih (y :: ys) (by simpa [List.cons_append] using h)
          exact ⟨List.mem_cons_of_mem _ hm, ho, hc⟩

lemma findMatchingBracket_spec {brackets : List BracketBlock} {ci : Nat}
    {cur m : BracketBlock} (hcur : brackets[ci]? = some cur)
    (h : findMatchingBracket brackets ci = some m) :
    m.colonCount = cur.colonCount ∧ m.isOpening = !cur.isOpening ∧
      (cur.isOpening = true → m ∈ brackets.drop (ci + 1)) ∧
      (cur.isOpening = false → m ∈ (brackets.take ci).reverse) := by
  simp only [findMatchingBracket, hcur] at h
  split at h
  · rename_i hop
    obtain ⟨hm, ho, hc⟩ := findMatchingForward_spec [] (by simpa using h)
    exact ⟨hc, by rw [ho, hop]; rfl, fun _ => hm,
      fun hf => absurd hop (by simp [hf])⟩
  · rename_i hop
    have hop' : cur.isOpening = false := by simpa using hop
    obtain ⟨hm, ho, hc⟩ := findMatchingBackward_spec [] (by simpa using h)
    exact ⟨hc, by rw [ho, hop']; rfl, fun ht => absurd ht (by simp [hop']),
      fun _ => hm⟩

/-! Ordering facts relating a bracket to the segments the scans visit. -/

lemma pairwise_line_lt_drop :
    ∀ {l : List BracketBlock} {i : Nat} {x y : BracketBlock},
      l.Pairwise (fun a b => a.line < b.line) → l[i]? = some x →
      y ∈ l.drop (i + 1) → x.line < y.line := by
  intro l
  induction l with
  | nil => intro i x y _ hx _; rw [List.getElem?_nil] at hx; exact Option.noConfusion hx
  | cons a t ih =>
    intro i x y hpw hx hy
    rcases List.pairwise_cons.mp hpw with ⟨hhead, htail⟩
    cases i with
    | zero =>
      rw [List.getElem?_cons_zero] at hx
      cases hx
      rw [List.drop_succ_cons, List.drop_zero] at hy
      exact hhead y hy
    | succ i' =>
      rw [List.getElem?_cons_succ] at hx
      rw [List.drop_succ_cons] at hy
      exact ih htail hx hy

lemma pairwise_line_lt_take :
    ∀ {l : List BracketBlock} {i : Nat} {x y : BracketBlock},
      l.Pairwise (fun a b => a.line < b.line) → l[i]? = some x →
      y ∈ (l.take i).reverse → y.line < x.line := by
  intro l
  induction l with
  | nil => intro i x y _ hx _; rw [List.getElem?_nil] at hx; exact Option.noConfusion hx
  | cons a t ih =>
    intro i x y hpw hx hy
    rw [List.mem_reverse] at hy
    rcases List.pairwise_cons.mp hpw with ⟨hhead, htail⟩
    cases i with
    | zero => simp at hy
    | succ i' =>
      rw [List.getElem?_cons_succ] at hx
      rw [List.take_succ_cons] at hy
      rcases List.mem_cons.mp hy with rfl | hmem
      · exact hhead x (List.getElem?_mem hx)
      · exact ih htail hx (List.mem_reverse.mpr hmem)

/-- C7: whenever `findMatchingBrackets` returns a `BracketMatch`, the
underlying opening and closing delimiter tokens have exactly equal colon
counts, both equal to the returned `colonCount` field (an opening of 3
colons is never paired with a closing of 2 colons or vice versa). -/
theorem matched_pair_colon_counts_equal (doc : Document) (pos : Position)
    (M : BracketMatch) (h : findMatchingBrackets doc pos = some M) :
    ∃ ob cb, ob ∈ scanAllBrackets doc ∧ cb ∈ scanAllBrackets doc ∧
      ob.isOpening = true ∧ cb.isOpening = false ∧
      ob.colonCount = M.colonCount ∧ cb.colonCount = M.colonCount ∧
      M.opening = createBracketRange doc ob ∧
      M.closing = createBracketRange doc cb := by
  unfold findMatchingBrackets at h
  cases hdet : detectBracketAtPosition (doc.getLine pos.line) pos.column with
  | none => rw [hdet] at h; exact Option.noConfusion h
  | some v =>
    rw [hdet] at h
    obtain ⟨ci, cur, m, hidx, hcur, hm, rfl⟩ := core_eq_some_iff.mp h
    obtain ⟨hcc, hrole, hfwd, hbwd⟩ := findMatchingBracket_spec hcur hm
    have hcurmem : cur ∈ scanAllBrackets doc := List.getElem?_mem hcur
    cases hop : cur.isOpening with
    | true =>
      have hmmem : m ∈ scanAllBrackets doc :=
        (List.drop_subset _ _) (hfwd hop)
      refine ⟨cur, m, hcurmem, hmmem, hop, by simp [hrole, hop], rfl, ?_, ?_, ?_⟩
      · simpa using hcc
      · simp [hop]
      · simp [hop]
    | false =>
      have hmmem : m ∈ scanAllBrackets doc :=
        (List.take_subset _ _) (List.mem_reverse.mp (hbwd hop))
      refine ⟨m, cur, hmmem, hcurmem, by simp [hrole, hop], hop, ?_, rfl, ?_, ?_⟩
      · simpa using hcc
      · simp [hop]
      · simp [hop]

/-- C7 witness: a concrete query returning a match, instantiating the
theorem. -/
theorem matched_pair_colon_counts_equal_witness :
    ∃ ob cb, ob ∈ scanAllBrackets (mkDoc ["::a", "::"]) ∧
      cb ∈ scanAllBrackets (mkDoc ["::a", "::"]) ∧
      ob.isOpening = true ∧ cb.isOpening = false ∧
      ob.colonCount = 2 ∧ cb.colonCount = 2 ∧
      (⟨0, 0, 0, 3⟩ : Range) = createBracketRange (mkDoc ["::a", "::"]) ob ∧
      (⟨1, 0, 1, 2⟩ : Range) = createBracketRange (mkDoc ["::a", "::"]) cb :=
  matched_pair_colon_counts_equal (mkDoc ["::a", "::"]) ⟨0, 0⟩
    ⟨⟨0, 0, 0, 3⟩, ⟨1, 0, 1, 2⟩, 2⟩ (by decide)

/-- C8: whenever `findMatchingBrackets` returns a `BracketMatch`, the range
labelled `opening` starts on a strictly earlier line than the range
labelled `closing`, regardless of which delimiter the cursor was on. -/
theorem opening_startLine_lt_closing_startLine (doc : Document) (pos : Position)
    (M : BracketMatch) (h : findMatchingBrackets doc pos = some M) :
    M.opening.startLine < M.closing.startLine := by
  unfold findMatchingBrackets at h
  cases hdet : detectBracketAtPosition (doc.getLine pos.line) pos.column with
  | none => rw [hdet] at h; exact Option.noConfusion h
  | some v =>
    rw [hdet] at h
    obtain ⟨ci, cur, m, hidx, hcur, hm, rfl⟩ := core_eq_some_iff.mp h
    obtain ⟨hcc, hrole, hfwd, hbwd⟩ := findMatchingBracket_spec hcur hm
    have hpw := scanAllBrackets_pairwise doc
    cases hop : cur.isOpening with
    | true =>
      have hlt : cur.line < m.line := pairwise_line_lt_drop hpw hcur (hfwd hop)
      simpa [hop, createBracketRange_startLine] using hlt
    | false =>
      have hlt : m.line < cur.line := pairwise_line_lt_take hpw hcur (hbwd hop)
      simpa [hop, createBracketRange_startLine] using hlt

/-- C8 witness: a concrete query returning a match, instantiating the
theorem. -/
theorem opening_startLine_lt_closing_startLine_witness :
    (⟨⟨0, 0, 0, 3⟩, ⟨1, 0, 1, 2⟩, 2⟩ : BracketMatch).opening.startLine <
      (⟨⟨0, 0, 0, 3⟩, ⟨1, 0, 1, 2⟩, 2⟩ : BracketMatch).closing.startLine :=
  opening_startLine_lt_closing_startLine (mkDoc ["::a", "::"]) ⟨1, 0⟩
    ⟨⟨0, 0, 0, 3⟩, ⟨1, 0, 1, 2⟩, 2⟩ (by decide)

/-! Once the cursor-side detection succeeds, the result only depends on the
cursor's line. -/

lemma findMatchingBrackets_of_detect_isSome {doc : Document} {pos : Position}
    (h : (detectBracketAtPosition (doc.getLine pos.line) pos.column).isSome = true) :
    findMatchingBrackets doc pos = findMatchingBracketsCore doc pos.line := by
  unfold findMatchingBrackets
  obtain ⟨v, hv⟩ := Option.isSome_iff_exists.mp h
  rw [hv]

lemma findMatchingBrackets_line_col {doc : Document} {line col : Nat}
    (h : (detectBracketAtPosition (doc.getLine line) col).isSome = true) :
    findMatchingBrackets doc ⟨line, col⟩ = findMatchingBracketsCore doc line :=
  @findMatchingBrackets_of_detect_isSome doc ⟨line, col⟩ h

/-- C4: on the document `["::outer","::inner","content","::","::"]`, a query
at any qualifying position on line 1 matches lines 1 and 3, and a query at
any qualifying position on line 0 matches lines 0 and 4. -/
theorem nested_scenario_matches :
    (∀ col,
      (detectBracketAtPosition
        ((mkDoc ["::outer", "::inner", "content", "::", "::"]).getLine 1) col).isSome
          = true →
      ∃ M, findMatchingBrackets
          (mkDoc ["::outer", "::inner", "content", "::", "::"]) ⟨1, col⟩ = some M ∧
        M.opening.startLine = 1 ∧ M.closing.startLine = 3) ∧
    (∀ col,
      (detectBracketAtPosition
        ((mkDoc ["::outer", "::inner", "content", "::", "::"]).getLine 0) col).isSome
          = true →
      ∃ M, findMatchingBrackets
          (mkDoc ["::outer", "::inner", "content", "::", "::"]) ⟨0, col⟩ = some M ∧
        M.opening.startLine = 0 ∧ M.closing.startLine = 4) := by
  constructor
  · intro col h
    rw [findMatchingBrackets_line_col h]
    exact ⟨⟨⟨1, 0, 1, 7⟩, ⟨3, 0, 3, 2⟩, 2⟩, by decide, rfl, rfl⟩
  · intro col h
    rw [findMatchingBrackets_line_col h]
    exact ⟨⟨⟨0, 0, 0, 7⟩, ⟨4, 0, 4, 2⟩, 2⟩, by decide, rfl, rfl⟩

/-- C4 witness: the two queries at column 0. -/
theorem nested_scenario_matches_witness :
    (∃ M, findMatchingBrackets
        (mkDoc ["::outer", "::inner", "content", "::", "::"]) ⟨1, 0⟩ = some M ∧
      M.opening.startLine = 1 ∧ M.closing.startLine = 3) ∧
    (∃ M, findMatchingBrackets
        (mkDoc ["::outer", "::inner", "content", "::", "::"]) ⟨0, 0⟩ = some M ∧
      M.opening.startLine = 0 ∧ M.closing.startLine = 4) :=
  ⟨nested_scenario_matches.1 0 (by decide), nested_scenario_matches.2 0 (by decide)⟩

/-- C5: on the document with a fenced region, a query at any qualifying
position on line 0 matches lines 0 and 5, and the colon runs on lines 2 and
3 never appear among the scanned tokens. -/
theorem fenced_scenario_matches :
    (∀ col,
      (detectBracketAtPosition
        ((mkDoc ["::component", "```", "::fake", "::", "```", "::"]).getLine 0)
          col).isSome = true →
      ∃ M, findMatchingBrackets
          (mkDoc ["::component", "```", "::fake", "::", "```", "::"]) ⟨0, col⟩
            = some M ∧
        M.opening.startLine = 0 ∧ M.closing.startLine = 5) ∧
    (∀ b ∈ scanAllBrackets (mkDoc ["::component", "```", "::fake", "::", "```", "::"]),
      b.line ≠ 2 ∧ b.line ≠ 3) := by
  constructor
  · intro col h
    rw [findMatchingBrackets_line_col h]
    exact ⟨⟨⟨0, 0, 0, 11⟩, ⟨5, 0, 5, 2⟩, 2⟩, by decide, rfl, rfl⟩
  · decide

/-- C5 witness: the query at column 0. -/
theorem fenced_scenario_matches_witness :
    ∃ M, findMatchingBrackets
        (mkDoc ["::component", "```", "::fake", "::", "```", "::"]) ⟨0, 0⟩ = some M ∧
      M.opening.startLine = 0 ∧ M.closing.startLine = 5 :=
  fenced_scenario_matches.1 0 (by decide)

/-- C6: on `["::outer","::inner","::"]`, a query at any qualifying position
on line 0 yields none (the single closing binds to the inner opening, as a
query on line 1 shows), never a partial pairing. -/
theorem missing_closing_scenario :
    (∀ col,
      (detectBracketAtPosition
        ((mkDoc ["::outer", "::inner", "::"]).getLine 0) col).isSome = true →
      findMatchingBrackets (mkDoc ["::outer", "::inner", "::"]) ⟨0, col⟩ = none) ∧
    (∀ col,
      (detectBracketAtPosition
        ((mkDoc ["::outer", "::inner", "::"]).getLine 1) col).isSome = true →
      ∃ M, findMatchingBrackets (mkDoc ["::outer", "::inner", "::"]) ⟨1, col⟩
          = some M ∧
        M.opening.startLine = 1 ∧ M.closing.startLine = 2) := by
  constructor
  · intro col h
    rw [findMatchingBrackets_line_col h]
    decide
  · intro col h
    rw [findMatchingBrackets_line_col h]
    exact ⟨⟨⟨1, 0, 1, 7⟩, ⟨2, 0, 2, 2⟩, 2⟩, by decide, rfl, rfl⟩

/-- C6 witness: the two queries at column 0. -/
theorem missing_closing_scenario_witness :
    findMatchingBrackets (mkDoc ["::outer", "::inner", "::"]) ⟨0, 0⟩ = none ∧
    (∃ M, findMatchingBrackets (mkDoc ["::outer", "::inner", "::"]) ⟨1, 0⟩ = some M ∧
      M.opening.startLine = 1 ∧ M.closing.startLine = 2) :=
  ⟨missing_closing_scenario.1 0 (by decide), missing_closing_scenario.2 0 (by decide)⟩

/-- C9: whenever the pipeline body raises an internal fault (for instance a
failing `getLine`), `findMatchingBrackets` returns none instead of
propagating the exception. -/
theorem internal_fault_yields_none (doc : EDocument) (pos : Position) (e : String)
    (h : findMatchingBracketsTry doc pos = Except.error e) :
    findMatchingBracketsE doc pos = none := by
  unfold findMatchingBracketsE
  rw [h]

/-- C9 witness: a document whose accessor always throws. -/
theorem internal_fault_yields_none_witness :
    findMatchingBracketsE ⟨fun _ => Except.error "getLine failed", 3⟩ ⟨0, 0⟩ = none :=
  internal_fault_yields_none ⟨fun _ => Except.error "getLine failed", 3⟩ ⟨0, 0⟩
    "getLine failed" rfl

/-! The fence test accepts a fence run followed by arbitrary text. -/

lemma isFenceLine_of_run_start {t : List Char} {k : Nat} {s : List Char} {c : Char}
    (hc : c = '`' ∨ c = '~') (hk : 3 ≤ k) (ht : t = List.replicate k c ++ s) :
    isFenceLine t = true := by
  obtain ⟨k', rfl⟩ : ∃ k', k = k' + 1 := ⟨k - 1, by omega⟩
  have hhead : t.head? = some c := by
    rw [ht, List.replicate_succ, List.cons_append]
    rfl
  have hnws : isJsWhitespace c = false := by
    rcases hc with rfl | rfl <;> decide
  have hdw : t.dropWhile isJsWhitespace = t :=
    dropWhile_eq_self_of_head (by
      intro c' hc'
      rw [hhead] at hc'
      cases hc'
      exact hnws)
  rcases hc with rfl | rfl
  · have hcl : 3 ≤ countLeading (fun c => c == '`') t := by
      calc 3 ≤ k' + 1 := hk
        _ ≤ countLeading (fun c => c == '`') (List.replicate (k' + 1) '`' ++ s) :=
          replicate_ge_countLeading (by decide) _ _
        _ = countLeading (fun c => c == '`') t := by rw [ht]
    simp [isFenceLine, hdw, hcl]
  · have hcl : 3 ≤ countLeading (fun c => c == '~') t := by
      calc 3 ≤ k' + 1 := hk
        _ ≤ countLeading (fun c => c == '~') (List.replicate (k' + 1) '~' ++ s) :=
          replicate_ge_countLeading (by decide) _ _
        _ = countLeading (fun c => c == '~') t := by rw [ht]
    simp [isFenceLine, hdw, hcl]

/-- C10: a line whose trimmed content begins with three or more backticks or
tildes followed by arbitrary text (such as a language tag) toggles the
inside-fenced-code flag and contributes no token. -/
theorem fence_with_tag_toggles (doc : Document) (inside : Bool) (n : Nat)
    (rest : List Nat)
    (h : ∃ k s, 3 ≤ k ∧
      (trimLine (doc.getLine n) = List.replicate k '`' ++ s ∨
       trimLine (doc.getLine n) = List.replicate k '~' ++ s)) :
    scanLines doc inside (n :: rest) = scanLines doc (!inside) rest ∧
      ∀ b ∈ scanLines doc inside (n :: rest), b.line ∈ rest := by
  obtain ⟨k, s, hk, hcase⟩ := h
  have hfence : isFenceLine (trimLine (doc.getLine n)) = true := by
    rcases hcase with hc | hc
    · exact isFenceLine_of_run_start (Or.inl rfl) hk hc
    · exact isFenceLine_of_run_start (Or.inr rfl) hk hc
  have heq : scanLines doc inside (n :: rest) = scanLines doc (!inside) rest := by
    rw [scanLines, if_pos hfence]
  refine ⟨heq, ?_⟩
  intro b hb
  rw [heq] at hb
  exact scanLines_line_mem doc hb

/-- C10 witness: a backtick fence with a language tag. -/
theorem fence_with_tag_toggles_witness :
    scanLines (mkDoc ["```js"]) false [0] = scanLines (mkDoc ["```js"]) true [] ∧
      ∀ b ∈ scanLines (mkDoc ["```js"]) false [0], b.line ∈ ([] : List Nat) :=
  fence_with_tag_toggles (mkDoc ["```js"]) false 0 []
    ⟨3, "js".toList, by decide, Or.inl (by decide)⟩

/-! Cursor-side detection on a line matching the opening pattern.  The line
is presented as leading whitespace, a maximal colon run, a maximal
component name, and arbitrary remaining text. -/

lemma matchOpeningAnchored_decomp {ws name rest : List Char} {k : Nat}
    (hws : ∀ c ∈ ws, isJsWhitespace c = true) (hk : 2 ≤ k) (hname : name ≠ [])
    (hnc : ∀ c ∈ name, isNameChar c = true)
    (hrest : ∀ c, rest.head? = some c → isNameChar c = false) :
    matchOpeningAnchored (ws ++ (List.replicate k ':' ++ (name ++ rest)))
      = some (ws.length, k, name.length) := by
  obtain ⟨k', rfl⟩ : ∃ k', k = k' + 1 := ⟨k - 1, by omega⟩
  obtain ⟨c₀, name', rfl⟩ : ∃ c₀ name', name = c₀ :: name' := by
    cases name with
    | nil => exact absurd rfl hname
    | cons c₀ name' => exact ⟨c₀, name', rfl⟩
  have hc₀ : isNameChar c₀ = true := hnc c₀ (List.mem_cons_self _ _)
  have hwsCount :
      countLeading isJsWhitespace
        (ws ++ (List.replicate (k' + 1) ':' ++ (c₀ :: name' ++ rest))) = ws.length := by
    rw [countLeading_append_all _ hws,
      countLeading_eq_zero_of_head (p := isJsWhitespace) (by
        intro c hc
        rw [List.replicate_succ, List.cons_append, List.head?_cons] at hc
        cases hc
        decide), Nat.add_zero]
  have hdropWs :
      (ws ++ (List.replicate (k' + 1) ':' ++ (c₀ :: name' ++ rest))).drop ws.length
        = List.replicate (k' + 1) ':' ++ (c₀ :: name' ++ rest) :=
    List.drop_left ws _
  have hcolCount :
      countLeading (fun c => c == ':')
        (List.replicate (k' + 1) ':' ++ (c₀ :: name' ++ rest)) = k' + 1 := by
    rw [countLeading_append_all _ (fun c hc => by
        rw [List.eq_of_mem_replicate hc]; decide),
      countLeading_eq_zero_of_head (by
        intro c hc
        rw [List.cons_append, List.head?_cons] at hc
        cases hc
        exact not_colon_of_nameChar hc₀),
      List.length_replicate, Nat.add_zero]
  have hdropCol :
      (List.replicate (k' + 1) ':' ++ (c₀ :: name' ++ rest)).drop (k' + 1)
        = c₀ :: name' ++ rest :=
    List.drop_left' (List.length_replicate _ _)
  have hnameCount :
      countLeading isNameChar (c₀ :: name' ++ rest) = (c₀ :: name').length := by
    rw [show c₀ :: name' ++ rest = (c₀ :: name') ++ rest from rfl,
      countLeading_append_all _ hnc, countLeading_eq_zero_of_head hrest,
      Nat.add_zero]
  rw [matchOpeningAnchored]
  simp only [hwsCount, hdropWs, hcolCount, hdropCol, hnameCount]
  rw [if_pos ⟨by omega, by simp⟩]

lemma matchClosingAnchored_decomp_none {ws name rest : List Char} {k : Nat}
    (hws : ∀ c ∈ ws, isJsWhitespace c = true) (hk : 2 ≤ k) (hname : name ≠ [])
    (hnc : ∀ c ∈ name, isNameChar c = true)
    (hrest : ∀ c, rest.head? = some c → isNameChar c = false) :
    matchClosingAnchored (ws ++ (List.replicate k ':' ++ (name ++ rest))) = none := by
  obtain ⟨k', rfl⟩ : ∃ k', k = k' + 1 := ⟨k - 1, by omega⟩
  obtain ⟨c₀, name', rfl⟩ : ∃ c₀ name', name = c₀ :: name' := by
    cases name with
    | nil => exact absurd rfl hname
    | cons c₀ name' => exact ⟨c₀, name', rfl⟩
  have hc₀ : isNameChar c₀ = true := hnc c₀ (List.mem_cons_self _ _)
  have hwsCount :
      countLeading isJsWhitespace
        (ws ++ (List.replicate (k' + 1) ':' ++ (c₀ :: name' ++ rest))) = ws.length := by
    rw [countLeading_append_all _ hws,
      countLeading_eq_zero_of_head (p := isJsWhitespace) (by
        intro c hc
        rw [List.replicate_succ, List.cons_append, List.head?_cons] at hc
        cases hc
        decide), Nat.add_zero]
  have hdropWs :
      (ws ++ (List.replicate (k' + 1) ':' ++ (c₀ :: name' ++ rest))).drop ws.length
        = List.replicate (k' + 1) ':' ++ (c₀ :: name' ++ rest) :=
    List.drop_left ws _
  have hcolCount :
      countLeading (fun c => c == ':')
        (List.replicate (k' + 1) ':' ++ (c₀ :: name' ++ rest)) = k' + 1 := by
    rw [countLeading_append_all _ (fun c hc => by
        rw [List.eq_of_mem_replicate hc]; decide),
      countLeading_eq_zero_of_head (by
        intro c hc
        rw [List.cons_append, List.head?_cons] at hc
        cases hc
        exact not_colon_of_nameChar hc₀),
      List.length_replicate, Nat.add_zero]
  have hdropCol :
      (List.replicate (k' + 1) ':' ++ (c₀ :: name' ++ rest)).drop (k' + 1)
        = c₀ :: name' ++ rest :=
    List.drop_left' (List.length_replicate _ _)
  rw [matchClosingAnchored]
  simp only [hwsCount, hdropWs, hcolCount, hdropCol]
  rw [if_neg]
  rintro ⟨-, hall⟩
  rw [List.cons_append, List.all_cons, not_ws_of_nameChar hc₀] at hall
  exact Bool.noConfusion hall

/-- C3 counterexample: on the line given by two colons and the name abc, the
column immediately after the name (column 5; the name's last character is at
column 4) is accepted by the position classifier with colon count 2, where
the claim requires none. -/
theorem detect_after_name_counterexample :
    detectBracketAtPosition (String.toList "::abc") 5 = some 2 ∧
      detectBracketAtPosition (String.toList "::abc") 5 ≠ none := by
  constructor
  · decide
  · decide

/-- C3 amended: on a line matching the opening pattern, the classifier
reports the cursor as on the delimiter exactly when the column lies between
the index of the first colon and the position one past the last character
of the component name, inclusive on both ends; any column outside that
extended span yields none. -/
theorem detect_opening_span (ws name rest : List Char) (k col : Nat)
    (hws : ∀ c ∈ ws, isJsWhitespace c = true) (hk : 2 ≤ k) (hname : name ≠ [])
    (hnc : ∀ c ∈ name, isNameChar c = true)
    (hrest : ∀ c, rest.head? = some c → isNameChar c = false) :
    detectBracketAtPosition (ws ++ (List.replicate k ':' ++ (name ++ rest))) col
      = if ws.length ≤ col ∧ col ≤ ws.length + k + name.length then some k
        else none := by
  simp only [detectBracketAtPosition,
    matchOpeningAnchored_decomp hws hk hname hnc hrest]
  by_cases hcol : ws.length ≤ col ∧ col ≤ ws.length + k + name.length
  · rw [if_pos hcol, if_pos hcol]
  · rw [if_neg hcol, if_neg hcol]
    simp only [detectClosingAtPosition,
      matchClosingAnchored_decomp_none hws hk hname hnc hrest]

/-- C3 witness: the amended theorem instantiated on the line with two colons
and name abc at column 5. -/
theorem detect_opening_span_witness :
    detectBracketAtPosition
        (([] : List Char) ++ (List.replicate 2 ':' ++ ("abc".toList ++ []))) 5
      = if ([] : List Char).length ≤ 5 ∧
            5 ≤ ([] : List Char).length + 2 + ("abc".toList).length then some 2
        else none :=
  detect_opening_span [] ("abc".toList) [] 2 5
    (fun c hc => absurd hc (List.not_mem_nil c)) (by decide) (by decide)
    (by decide) (fun c hc => Option.noConfusion hc)

/-! From a closing token back to its trimmed source line. -/

lemma scanLines_closing_spec (doc : Document) :
    ∀ {ns : List Nat} {inside : Bool} {b : BracketBlock},
      b ∈ scanLines doc inside ns → b.isOpening = false →
      matchScanClosing (trimLine (doc.getLine b.line)) = some b.colonCount := by
  intro ns
  induction ns with
  | nil => intro inside b hb _; rw [scanLines] at hb; exact absurd hb (List.not_mem_nil b)
  | cons n rest ih =>
    intro inside b hb hop
    rw [scanLines] at hb
    split at hb
    · exact ih hb hop
    · split at hb
      · exact ih hb hop
      · split at hb
        · rcases List.mem_cons.mp hb with rfl | hmem
          · exact absurd hop (by simp)
          · exact ih hmem hop
        · split at hb
          · rcases List.mem_cons.mp hb with rfl | hmem
            · simpa using (by assumption : matchScanClosing (trimLine (doc.getLine n)) = _)
            · exact ih hmem hop
          · exact ih hb hop

lemma matchScanClosing_spec {t : List Char} {cc : Nat}
    (h : matchScanClosing t = some cc) :
    t = List.replicate cc ':' ∧ 2 ≤ cc := by
  rw [matchScanClosing] at h
  split at h
  · rename_i hcond
    cases h
    obtain ⟨h2, hlen⟩ := hcond
    refine ⟨?_, h2⟩
    have hall := all_of_countLeading_eq_length hlen
    rw [List.eq_replicate_iff]
    exact ⟨hlen.symm ▸ rfl, fun c hc => eq_of_beq (hall c hc)⟩
  · exact Option.noConfusion h

lemma trim_no_trailing_ws {l : List Char}
    (hlast : ∀ c, l.getLast? = some c → isJsWhitespace c = false) :
    trimLine l = l.dropWhile isJsWhitespace := by
  rw [trimLine]
  cases hd : l.dropWhile isJsWhitespace with
  | nil => simp
  | cons x xs =>
    have hne : l.dropWhile isJsWhitespace ≠ [] := by rw [hd]; exact List.cons_ne_nil x xs
    have hsplit : l = l.takeWhile isJsWhitespace ++ l.dropWhile isJsWhitespace :=
      (List.takeWhile_append_dropWhile _ _).symm
    have hlast2 : (l.dropWhile isJsWhitespace).getLast? = l.getLast? := by
      conv_rhs => rw [hsplit]
      exact (List.getLast?_append_of_ne_nil _ hne).symm
    have hrevhead : ∀ c, (l.dropWhile isJsWhitespace).reverse.head? = some c →
        isJsWhitespace c = false := by
      intro c hc
      rw [List.head?_reverse, hlast2] at hc
      exact hlast c hc
    rw [← hd, dropWhile_eq_self_of_head hrevhead, List.reverse_reverse]

/-- C2 counterexample: the line made of two colons and a trailing space is
scanned as a closing token, but the range builder re-reads the raw line,
whose right-anchored colon match fails, and takes the full-line fallback
range (endColumn 3) instead of the colon-run span (endColumn 2). -/
theorem closing_range_fallback_counterexample :
    (⟨1, 2, false, none⟩ : BracketBlock) ∈ scanAllBrackets (mkDoc ["::a", ":: "]) ∧
    createBracketRange (mkDoc ["::a", ":: "]) ⟨1, 2, false, none⟩ = ⟨1, 0, 1, 3⟩ ∧
    createBracketRange (mkDoc ["::a", ":: "]) ⟨1, 2, false, none⟩ ≠ ⟨1, 0, 1, 2⟩ := by
  refine ⟨by decide, by decide, by decide⟩

/-- C2 amended: for a closing token produced by the Scanner whose raw line
does not end in whitespace, the range builder returns the span of the
trailing colon run in raw column offsets; when the raw line has trailing
whitespace the right-anchored match fails and the full-line fallback range
is taken. -/
theorem closing_range_of_scanner_token (doc : Document) (b : BracketBlock)
    (hmem : b ∈ scanAllBrackets doc) (hop : b.isOpening = false)
    (hlast : ∀ c, (doc.getLine b.line).getLast? = some c →
      isJsWhitespace c = false) :
    createBracketRange doc b =
      ⟨b.line, (doc.getLine b.line).length - b.colonCount, b.line,
        (doc.getLine b.line).length⟩ := by
  obtain ⟨htr, hk2⟩ :=
    matchScanClosing_spec (scanLines_closing_spec doc hmem hop)
  have hdw : (doc.getLine b.line).dropWhile isJsWhitespace
      = List.replicate b.colonCount ':' := by
    rw [← trim_no_trailing_ws hlast, htr]
  have hsplit : doc.getLine b.line
      = (doc.getLine b.line).takeWhile isJsWhitespace
          ++ List.replicate b.colonCount ':' := by
    conv_lhs => rw [← List.takeWhile_append_dropWhile (p := isJsWhitespace)
      (l := doc.getLine b.line)]
    rw [hdw]
  have htrail : trailingColonRun (doc.getLine b.line) = b.colonCount := by
    rw [trailingColonRun]
    conv_lhs => rw [hsplit]
    rw [List.reverse_append, List.reverse_replicate,
      countLeading_append_all _ (fun c hc => by
        rw [List.eq_of_mem_replicate hc]; decide),
      countLeading_eq_zero_of_head (by
        intro c hc
        have hcmem : c ∈ ((doc.getLine b.line).takeWhile isJsWhitespace).reverse := by
          cases hrev : ((doc.getLine b.line).takeWhile isJsWhitespace).reverse with
          | nil => rw [hrev] at hc; exact Option.noConfusion hc
          | cons x xs =>
            rw [hrev, List.head?_cons] at hc
            cases hc
            exact List.mem_cons_self _ _
        rw [List.mem_reverse] at hcmem
        exact not_colon_of_ws (List.mem_takeWhile_imp hcmem)),
      List.length_replicate, Nat.add_zero]
  rw [createBracketRange, bracketRangeOfLine, hop]
  simp only [Bool.false_eq_true, if_false]
  rw [htrail, if_pos hk2]

/-- C2 witness: the amended theorem instantiated on a document whose closing
line has no trailing whitespace. -/
theorem closing_range_of_scanner_token_witness :
    createBracketRange (mkDoc ["::a", "::"]) ⟨1, 2, false, none⟩ =
      ⟨1, ((mkDoc ["::a", "::"]).getLine 1).length - 2, 1,
        ((mkDoc ["::a", "::"]).getLine 1).length⟩ :=
  closing_range_of_scanner_token (mkDoc ["::a", "::"]) ⟨1, 2, false, none⟩
    (by decide) rfl (by decide)

/-! Counting lemmas for the uniform-colon-count analysis. -/

lemma flipRole_flipRole (b : BracketBlock) : flipRole (flipRole b) = b := by
  simp [flipRole]

lemma flipRole_isOpening (b : BracketBlock) :
    (flipRole b).isOpening = !b.isOpening := rfl

lemma flipRole_colonCount (b : BracketBlock) :
    (flipRole b).colonCount = b.colonCount := rfl

lemma opensCount_nil : opensCount [] = 0 := rfl

lemma closesCount_nil : closesCount [] = 0 := rfl

lemma opensCount_cons (b : BracketBlock) (l : List BracketBlock) :
    opensCount (b :: l) = (if b.isOpening = true then 1 else 0) + opensCount l := by
  rw [opensCount, List.filter_cons]
  split <;> simp [opensCount, Nat.add_comm]

lemma closesCount_cons (b : BracketBlock) (l : List BracketBlock) :
    closesCount (b :: l) = (if b.isOpening = true then 0 else 1) + closesCount l := by
  rw [closesCount, List.filter_cons]
  rcases hb : b.isOpening <;> simp [hb, closesCount, Nat.add_comm]

lemma opensCount_append (a b : List BracketBlock) :
    opensCount (a ++ b) = opensCount a + opensCount b := by
  simp [opensCount, List.filter_append]

lemma closesCount_append (a b : List BracketBlock) :
    closesCount (a ++ b) = closesCount a + closesCount b := by
  simp [closesCount, List.filter_append]

lemma opensCount_reverse (l : List BracketBlock) :
    opensCount l.reverse = opensCount l := by
  simp [opensCount, List.filter_reverse]

lemma closesCount_reverse (l : List BracketBlock) :
    closesCount l.reverse = closesCount l := by
  simp [closesCount, List.filter_reverse]

lemma opensCount_map_flipRole (l : List BracketBlock) :
    opensCount (l.map flipRole) = closesCount l := by
  rw [opensCount, List.filter_map, List.length_map]
  rfl

lemma closesCount_map_flipRole (l : List BracketBlock) :
    closesCount (l.map flipRole) = opensCount l := by
  rw [closesCount, List.filter_map, List.length_map]
  congr 1
  apply List.filter_congr
  intro b _
  simp [flipRole]

lemma counts_take_succ {l : List BracketBlock} {t : Nat} {bt : BracketBlock}
    (h : l[t]? = some bt) :
    opensCount (l.take (t + 1))
        = opensCount (l.take t) + (if bt.isOpening = true then 1 else 0) ∧
      closesCount (l.take (t + 1))
        = closesCount (l.take t) + (if bt.isOpening = true then 0 else 1) := by
  rw [List.take_succ, h]
  constructor
  · rw [opensCount_append]
    rcases hb : bt.isOpening <;> simp [hb, opensCount_cons, opensCount_nil]
  · rw [closesCount_append]
    rcases hb : bt.isOpening <;> simp [hb, closesCount_cons, closesCount_nil]

/-! Characterization of the height-only forward scan: it stops at the first
closing bracket at which the running excess of closings over openings
reaches the initial stack height. -/

lemma findFi_spec_mp :
    ∀ {l : List BracketBlock} {s m : Nat}, findFi (s + 1) l = some m →
      (∃ b, l[m]? = some b ∧ b.isOpening = false) ∧
      closesCount (l.take m) = s + opensCount (l.take m) ∧
      (∀ t, t < m → (∃ bt, l[t]? = some bt ∧ bt.isOpening = false) →
        closesCount (l.take t) ≠ s + opensCount (l.take t)) := by
  intro l
  induction l with
  | nil => intro s m h; exact Option.noConfusion h
  | cons b rest ih =>
    intro s m h
    simp only [findFi] at h
    split at h
    · rename_i hb
      cases hf : findFi (s + 1 + 1) rest with
      | none => rw [hf] at h; exact Option.noConfusion h
      | some mr =>
        rw [hf, Option.map_some'] at h
        cases h
        obtain ⟨⟨br, hbr, hbor⟩, hcnt, hmin⟩ := ih (s := s + 1) hf
        refine ⟨⟨br, by simpa using hbr, hbor⟩, ?_, ?_⟩
        · rw [List.take_succ_cons, closesCount_cons, opensCount_cons, hb]
          simp only [if_true]
          omega
        · intro t ht hbt
          cases t with
          | zero =>
            obtain ⟨bt, hbt0, hbtop⟩ := hbt
            rw [List.getElem?_cons_zero] at hbt0
            cases hbt0
            rw [hb] at hbtop
            exact Bool.noConfusion hbtop
          | succ tr =>
            obtain ⟨bt, hbt0, hbtop⟩ := hbt
            rw [List.getElem?_cons_succ] at hbt0
            have hne := hmin tr (by omega) ⟨bt, hbt0, hbtop⟩
            rw [List.take_succ_cons, closesCount_cons, opensCount_cons, hb]
            simp only [if_true]
            omega
    · rename_i hb
      have hbf : b.isOpening = false := by simpa using hb
      cases s with
      | zero =>
        have h0 : (some 0 : Option Nat) = some m := h
        cases h0
        refine ⟨⟨b, by simp, hbf⟩,
          by simp [closesCount_nil, opensCount_nil], ?_⟩
        intro t ht
        omega
      | succ sr =>
        have hmap : (findFi (sr + 1) rest).map (· + 1) = some m := h
        cases hf : findFi (sr + 1) rest with
        | none => rw [hf] at hmap; exact Option.noConfusion hmap
        | some mr =>
          rw [hf, Option.map_some'] at hmap
          cases hmap
          obtain ⟨⟨br, hbr, hbor⟩, hcnt, hmin⟩ := ih (s := sr) hf
          refine ⟨⟨br, by simpa using hbr, hbor⟩, ?_, ?_⟩
          · rw [List.take_succ_cons, closesCount_cons, opensCount_cons, hbf]
            simp only [Bool.false_eq_true, if_false]
            omega
          · intro t ht hbt
            cases t with
            | zero =>
              simp [closesCount_nil, opensCount_nil]
            | succ tr =>
              obtain ⟨bt, hbt0, hbtop⟩ := hbt
              rw [List.getElem?_cons_succ] at hbt0
              have hne := hmin tr (by omega) ⟨bt, hbt0, hbtop⟩
              rw [List.take_succ_cons, closesCount_cons, opensCount_cons, hbf]
              simp only [Bool.false_eq_true, if_false]
              omega

lemma findFi_spec_mpr :
    ∀ {l : List BracketBlock} {s m : Nat},
      (∃ b, l[m]? = some b ∧ b.isOpening = false) →
      closesCount (l.take m) = s + opensCount (l.take m) →
      (∀ t, t < m → (∃ bt, l[t]? = some bt ∧ bt.isOpening = false) →
        closesCount (l.take t) ≠ s + opensCount (l.take t)) →
      findFi (s + 1) l = some m := by
  intro l
  induction l with
  | nil =>
    intro s m helem _ _
    obtain ⟨b, hb, -⟩ := helem
    rw [List.getElem?_nil] at hb
    exact Option.noConfusion hb
  | cons b rest ih =>
    intro s m helem hcnt hmin
    simp only [findFi]
    cases hb : b.isOpening with
    | true =>
      rw [if_pos rfl]
      obtain ⟨bm, hbm, hbmop⟩ := helem
      cases m with
      | zero =>
        rw [List.getElem?_cons_zero] at hbm
        cases hbm
        rw [hb] at hbmop
        exact Bool.noConfusion hbmop
      | succ mr =>
        rw [List.getElem?_cons_succ] at hbm
        have hcnt' : closesCount (rest.take mr) = (s + 1) + opensCount (rest.take mr) := by
          rw [List.take_succ_cons, closesCount_cons, opensCount_cons, hb] at hcnt
          simp only [if_true] at hcnt
          omega
        have hmin' : ∀ t, t < mr → (∃ bt, rest[t]? = some bt ∧ bt.isOpening = false) →
            closesCount (rest.take t) ≠ (s + 1) + opensCount (rest.take t) := by
          intro t ht hbt
          have hne := hmin (t + 1) (by omega)
            (by obtain ⟨bt, h1, h2⟩ := hbt; exact ⟨bt, by simpa using h1, h2⟩)
          rw [List.take_succ_cons, closesCount_cons, opensCount_cons, hb] at hne
          simp only [if_true] at hne
          omega
        rw [ih ⟨bm, hbm, hbmop⟩ hcnt' hmin', Option.map_some']
    | false =>
      rw [if_neg Bool.false_ne_true]
      cases s with
      | zero =>
        cases m with
        | zero => rfl
        | succ mr =>
          exfalso
          exact hmin 0 (by omega) ⟨b, by simp, hb⟩
            (by simp [closesCount_nil, opensCount_nil])
      | succ sr =>
        cases m with
        | zero =>
          exfalso
          rw [List.take_zero, closesCount_nil, opensCount_nil] at hcnt
          omega
        | succ mr =>
          obtain ⟨bm, hbm, hbmop⟩ := helem
          rw [List.getElem?_cons_succ] at hbm
          have hcnt' : closesCount (rest.take mr) = sr + opensCount (rest.take mr) := by
            rw [List.take_succ_cons, closesCount_cons, opensCount_cons, hb] at hcnt
            simp only [Bool.false_eq_true, if_false] at hcnt
            omega
          have hmin' : ∀ t, t < mr → (∃ bt, rest[t]? = some bt ∧ bt.isOpening = false) →
              closesCount (rest.take t) ≠ sr + opensCount (rest.take t) := by
            intro t ht hbt
            have hne := hmin (t + 1) (by omega)
              (by obtain ⟨bt, h1, h2⟩ := hbt; exact ⟨bt, by simpa using h1, h2⟩)
            rw [List.take_succ_cons, closesCount_cons, opensCount_cons, hb] at hne
            simp only [Bool.false_eq_true, if_false] at hne
            omega
          have hrec := ih ⟨bm, hbm, hbmop⟩ hcnt' hmin'
          show (findFi (sr + 1) rest).map (· + 1) = some (mr + 1)
          rw [hrec, Option.map_some']

lemma closes_le_opens_of_min {l : List BracketBlock} {m : Nat}
    (hm : m < l.length)
    (hcnt : closesCount (l.take m) = opensCount (l.take m))
    (hmin : ∀ t, t < m → (∃ bt, l[t]? = some bt ∧ bt.isOpening = false) →
      closesCount (l.take t) ≠ opensCount (l.take t)) :
    ∀ t, t ≤ m → closesCount (l.take t) ≤ opensCount (l.take t) := by
  intro t
  induction t with
  | zero => intro _; simp [closesCount_nil, opensCount_nil]
  | succ tr ihr =>
    intro ht
    have hle := ihr (by omega)
    have htl : tr < l.length := by omega
    obtain ⟨bt, hbt⟩ : ∃ bt, l[tr]? = some bt :=
      ⟨l[tr], List.getElem?_eq_getElem htl⟩
    obtain ⟨hot, hct⟩ := counts_take_succ hbt
    cases hop : bt.isOpening with
    | true => rw [hot, hct, hop]; simp; omega
    | false =>
      have hne := hmin tr (by omega) ⟨bt, hbt, hop⟩
      rw [hot, hct, hop]
      simp only [Bool.false_eq_true, if_false, if_true]
      omega

lemma reverse_take_eq (W : List BracketBlock) (d : Nat) :
    W.reverse.take d = (W.drop (W.length - d)).reverse := by
  rw [← List.reverse_reverse (W.reverse.take d), List.reverse_take,
    List.reverse_reverse, List.length_reverse]

/-- The forward scan of a balanced segment, read backwards with the roles
exchanged, stops at the segment's far end: the matching-run reversal at the
heart of the symmetry argument. -/
lemma findFi_one_rev {l : List BracketBlock} {m : Nat}
    (h : findFi 1 l = some m) (c : BracketBlock) (hc : c.isOpening = false)
    (rest : List BracketBlock) :
    findFi 1 ((l.take m).reverse.map flipRole ++ c :: rest) = some m := by
  obtain ⟨⟨bm, hbm, hbmop⟩, hcnt0, hmin0⟩ := findFi_spec_mp (s := 0) h
  have hml : m < l.length := by
    by_contra hge
    rw [List.getElem?_eq_none (by omega)] at hbm
    exact Option.noConfusion hbm
  have hcnt : closesCount (l.take m) = opensCount (l.take m) := by simpa using hcnt0
  have hmin : ∀ t, t < m → (∃ bt, l[t]? = some bt ∧ bt.isOpening = false) →
      closesCount (l.take t) ≠ opensCount (l.take t) := by
    intro t ht hbt
    simpa using hmin0 t ht hbt
  have hinv := closes_le_opens_of_min hml hcnt hmin
  set mid := l.take m with hmid
  have hmidlen : mid.length = m := by
    rw [hmid, List.length_take]
    omega
  have hA : (mid.reverse.map flipRole).length = m := by
    rw [List.length_map, List.length_reverse, hmidlen]
  apply findFi_spec_mpr (s := 0)
  · refine ⟨c, ?_, hc⟩
    rw [List.getElem?_append]
    simp [hmidlen]
  · have htake : (mid.reverse.map flipRole ++ c :: rest).take m
        = mid.reverse.map flipRole := by
      rw [List.take_append_of_le_length (le_of_eq hA.symm), ← hA, List.take_length]
    rw [htake, closesCount_map_flipRole, opensCount_map_flipRole,
      opensCount_reverse, closesCount_reverse]
    omega
  · intro t ht hbt
    have hAt : (mid.reverse.map flipRole ++ c :: rest)[t]?
        = (mid.reverse.map flipRole)[t]? := by
      rw [List.getElem?_append]
      rw [if_pos (by omega)]
    obtain ⟨bt, hbt0, hbtop⟩ := hbt
    rw [hAt, List.getElem?_map] at hbt0
    cases hmr : mid.reverse[t]? with
    | none => rw [hmr] at hbt0; exact Option.noConfusion hbt0
    | some bu =>
      rw [hmr, Option.map_some'] at hbt0
      cases hbt0
      have hbuop : bu.isOpening = true := by
        rw [flipRole_isOpening] at hbtop
        simpa using hbtop
      have htm : t < mid.length := by rw [hmidlen]; omega
      have hmru : mid.reverse[t]? = mid[mid.length - 1 - t]? :=
        List.getElem?_reverse htm
      have hbu : mid[mid.length - 1 - t]? = some bu := by rw [← hmru, hmr]
      have htake_t : (mid.reverse.map flipRole ++ c :: rest).take t
          = (mid.reverse.take t).map flipRole := by
        rw [List.take_append_of_le_length (by omega), ← List.map_take]
      rw [htake_t, reverse_take_eq, closesCount_map_flipRole,
        opensCount_map_flipRole, opensCount_reverse, closesCount_reverse]
      intro heq
      set u := mid.length - 1 - t with hu_def
      have hU1 : mid.length - t = u + 1 := by omega
      rw [hU1] at heq
      have htot_o : opensCount mid
          = opensCount (mid.take (u + 1)) + opensCount (mid.drop (u + 1)) := by
        conv_lhs => rw [← List.take_append_drop (u + 1) mid]
        rw [opensCount_append]
      have htot_c : closesCount mid
          = closesCount (mid.take (u + 1)) + closesCount (mid.drop (u + 1)) := by
        conv_lhs => rw [← List.take_append_drop (u + 1) mid]
        rw [closesCount_append]
      obtain ⟨ho2, hc2⟩ := counts_take_succ hbu
      rw [hbuop] at ho2 hc2
      simp only [if_true] at ho2 hc2
      have hinvu : closesCount (mid.take u) ≤ opensCount (mid.take u) := by
        have hiu := hinv u (by omega)
        have hlu : l.take u = mid.take u := by
          rw [hmid, List.take_take]
          congr 1
          omega
        rwa [hlu] at hiu
      omega

/-! Under a uniform colon count, only the stack height matters: the real
scans agree with the height-only scan (the backward scan after exchanging
roles). -/

lemma forward_eq_findFi {k : Nat} :
    ∀ {l : List BracketBlock} (stack : List BracketBlock),
      (∀ b ∈ stack, b.colonCount = k) → (∀ b ∈ l, b.colonCount = k) →
      findMatchingForward stack l
        = (findFi stack.length l).bind (fun i => l[i]?) := by
  intro l
  induction l with
  | nil => intro stack _ _; simp [findMatchingForward, findFi]
  | cons b rest ih =>
    intro stack hstack hl
    have hbk : b.colonCount = k := hl b (List.mem_cons_self _ _)
    have hlr : ∀ x ∈ rest, x.colonCount = k :=
      fun x hx => hl x (List.mem_cons_of_mem _ hx)
    simp only [findMatchingForward, findFi]
    cases hb : b.isOpening with
    | true =>
      simp only [if_true]
      rw [ih (b :: stack)
        (by
          intro x hx
          rcases List.mem_cons.mp hx with rfl | hx'
          · exact hbk
          · exact hstack x hx') hlr]
      cases hfi : findFi (stack.length + 1) rest with
      | none => simp [List.length_cons, hfi]
      | some i => simp [List.length_cons, hfi]
    | false =>
      simp only [Bool.false_eq_true, if_false]
      cases stack with
      | nil =>
        rw [ih [] (by intro x hx; exact absurd hx (List.not_mem_nil x)) hlr]
        cases hfi : findFi 0 rest with
        | none => simp [hfi]
        | some i => simp [hfi]
      | cons top srest =>
        have htopk : top.colonCount = k := hstack top (List.mem_cons_self _ _)
        dsimp only
        rw [if_pos (by rw [htopk, hbk])]
        cases srest with
        | nil => simp
        | cons s2 srest2 =>
          rw [ih (s2 :: srest2)
            (by
              intro x hx
              exact hstack x (List.mem_cons_of_mem _ (by exact hx))) hlr]
          cases hfi : findFi (srest2.length + 1) rest with
          | none => simp [List.length_cons, hfi]
          | some i => simp [List.length_cons, hfi]

lemma backward_eq_findFi {k : Nat} :
    ∀ {l : List BracketBlock} (stack : List BracketBlock),
      (∀ b ∈ stack, b.colonCount = k) → (∀ b ∈ l, b.colonCount = k) →
      findMatchingBackward stack l
        = (findFi stack.length (l.map flipRole)).bind (fun i => l[i]?) := by
  intro l
  induction l with
  | nil => intro stack _ _; simp [findMatchingBackward, findFi]
  | cons b rest ih =>
    intro stack hstack hl
    have hbk : b.colonCount = k := hl b (List.mem_cons_self _ _)
    have hlr : ∀ x ∈ rest, x.colonCount = k :=
      fun x hx => hl x (List.mem_cons_of_mem _ hx)
    cases hb : b.isOpening with
    | true =>
      simp only [findMatchingBackward, List.map_cons, findFi, flipRole_isOpening,
        hb, Bool.not_true, Bool.false_eq_true, if_false]
      cases stack with
      | nil =>
        rw [ih [] (by intro x hx; exact absurd hx (List.not_mem_nil x)) hlr]
        cases hfi : findFi 0 (rest.map flipRole) with
        | none => simp [hfi]
        | some i => simp [hfi]
      | cons top srest =>
        have htopk : top.colonCount = k := hstack top (List.mem_cons_self _ _)
        dsimp only
        rw [if_pos (by rw [htopk, hbk])]
        cases srest with
        | nil => simp
        | cons s2 srest2 =>
          rw [ih (s2 :: srest2)
            (by
              intro x hx
              exact hstack x (List.mem_cons_of_mem _ (by exact hx))) hlr]
          cases hfi : findFi (srest2.length + 1) (rest.map flipRole) with
          | none => simp [List.length_cons, hfi]
          | some i => simp [List.length_cons, hfi]
    | false =>
      simp only [findMatchingBackward, List.map_cons, findFi, flipRole_isOpening,
        hb, Bool.not_false, if_true]
      rw [ih (b :: stack)
        (by
          intro x hx
          rcases List.mem_cons.mp hx with rfl | hx'
          · exact hbk
          · exact hstack x hx') hlr]
      cases hfi : findFi (stack.length + 1) (rest.map flipRole) with
      | none => simp [List.length_cons, hfi]
      | some i => simp [List.length_cons, hfi]

/-- C1 counterexample: with mixed colon counts the two ends of a pair
disagree.  On the document with lines given by two colons and name a,
three colons and name b, and a bare two-colon closing, the query at the
closing (line 2) returns the pair of lines 0 and 2, while the query at a
qualifying position on that pair's opening delimiter (line 0) returns
none. -/
theorem symmetry_counterexample :
    findMatchingBrackets (mkDoc ["::a", ":::b", "::"]) ⟨2, 0⟩ =
      some ⟨⟨0, 0, 0, 3⟩, ⟨2, 0, 2, 2⟩, 2⟩ ∧
    findMatchingBrackets (mkDoc ["::a", ":::b", "::"]) ⟨0, 0⟩ = none := by
  constructor
  · decide
  · decide

/-- C1 amended: when every delimiter token of the document carries the same
colon count, querying at a qualifying position on the opening delimiter and
querying at a qualifying position on its closing delimiter yield the same
`BracketMatch` value. -/
theorem symmetry_of_uniform_colon_counts (doc : Document) (p q : Position)
    (k : Nat) (M : BracketMatch)
    (huni : ∀ b ∈ scanAllBrackets doc, b.colonCount = k)
    (hp : findMatchingBrackets doc p = some M)
    (hq : (detectBracketAtPosition (doc.getLine q.line) q.column).isSome = true)
    (hline : q.line = M.opening.startLine ∨ q.line = M.closing.startLine) :
    findMatchingBrackets doc q = some M := by
  have hpc : findMatchingBracketsCore doc p.line = some M := by
    unfold findMatchingBrackets at hp
    cases hdet : detectBracketAtPosition (doc.getLine p.line) p.column with
    | none => rw [hdet] at hp; exact Option.noConfusion hp
    | some v => rw [hdet] at hp; exact hp
  rw [findMatchingBrackets_of_detect_isSome hq]
  obtain ⟨ci, cur, m, hidx, hcur, hm, hMdef⟩ := core_eq_some_iff.mp hpc
  have hpw := scanAllBrackets_pairwise doc
  have hcurline : cur.line = p.line := by
    obtain ⟨b, hb, hbl⟩ := findBracketIdx_some hidx
    rw [hcur] at hb
    cases hb
    exact hbl
  obtain ⟨hmc, hmrole, hfwd, hbwd⟩ := findMatchingBracket_spec hcur hm
  have hcurk : cur.colonCount = k := huni cur (List.getElem?_mem hcur)
  have hcil : ci < (scanAllBrackets doc).length := by
    by_contra hge
    rw [List.getElem?_eq_none (by omega)] at hcur
    exact Option.noConfusion hcur
  cases hop : cur.isOpening with
  | true =>
    have hmo : m.isOpening = false := by rw [hmrole, hop]; rfl
    have hfm : findMatchingForward [cur] ((scanAllBrackets doc).drop (ci + 1))
        = some m := by
      simp only [findMatchingBracket, hcur, hop, if_true] at hm
      exact hm
    rw [forward_eq_findFi (k := k) [cur]
      (by
        intro x hx
        rcases List.mem_cons.mp hx with rfl | hx'
        · exact hcurk
        · exact absurd hx' (List.not_mem_nil x))
      (fun x hx => huni x (List.drop_subset _ _ hx))] at hfm
    simp only [List.length_singleton] at hfm
    cases hfi : findFi 1 ((scanAllBrackets doc).drop (ci + 1)) with
    | none => rw [hfi] at hfm; exact Option.noConfusion hfm
    | some d =>
      rw [hfi] at hfm
      have hfmd : ((scanAllBrackets doc).drop (ci + 1))[d]? = some m := hfm
      have hj : (scanAllBrackets doc)[ci + 1 + d]? = some m := by
        rw [← List.getElem?_drop]
        exact hfmd
      have hdl : d < ((scanAllBrackets doc).drop (ci + 1)).length := by
        by_contra hge
        rw [List.getElem?_eq_none (by omega)] at hfmd
        exact Option.noConfusion hfmd
      have hMo : M.opening.startLine = cur.line := by
        rw [hMdef]
        simp [hop, createBracketRange_startLine]
      have hMc : M.closing.startLine = m.line := by
        rw [hMdef]
        simp [hop, createBracketRange_startLine]
      rcases hline with hql | hql
      · rw [hql, hMo, hcurline]
        exact hpc
      · rw [hql, hMc]
        apply core_eq_some_iff.mpr
        refine ⟨ci + 1 + d, m, cur, findBracketIdx_of_pairwise hpw hj, hj, ?_, ?_⟩
        · simp only [findMatchingBracket, hj, hmo, Bool.false_eq_true, if_false]
          rw [backward_eq_findFi (k := k) [m]
            (by
              intro x hx
              rcases List.mem_cons.mp hx with rfl | hx'
              · exact huni x (List.getElem?_mem hj)
              · exact absurd hx' (List.not_mem_nil x))
            (fun x hx => huni x (List.take_subset _ _ (List.mem_reverse.mp hx)))]
          simp only [List.length_singleton]
          have hrev : ((scanAllBrackets doc).take (ci + 1 + d)).reverse
              = (((scanAllBrackets doc).drop (ci + 1)).take d).reverse
                ++ cur :: ((scanAllBrackets doc).take ci).reverse := by
            rw [List.take_add]
            have h1 : (scanAllBrackets doc).take (ci + 1)
                = (scanAllBrackets doc).take ci ++ [cur] := by
              rw [List.take_succ, hcur]
              rfl
            rw [h1, List.reverse_append, List.reverse_append]
            simp
          rw [hrev, List.map_append, List.map_cons]
          rw [findFi_one_rev hfi (flipRole cur)
            (by rw [flipRole_isOpening, hop]; rfl)
            (((scanAllBrackets doc).take ci).reverse.map flipRole)]
          show ((((scanAllBrackets doc).drop (ci + 1)).take d).reverse
              ++ cur :: ((scanAllBrackets doc).take ci).reverse)[d]? = some cur
          have hlenmid : ((((scanAllBrackets doc).drop (ci + 1)).take d).reverse).length
              = d := by
            rw [List.length_reverse, List.length_take]
            omega
          rw [List.getElem?_append]
          rw [if_neg (by omega), hlenmid]
          simp
        · rw [hMdef]
          simp [hop, hmo, hmc]
  | false =>
    have hmopen : m.isOpening = true := by rw [hmrole, hop]; rfl
    have hfm : findMatchingBackward [cur] (((scanAllBrackets doc).take ci).reverse)
        = some m := by
      simp only [findMatchingBracket, hcur, hop, Bool.false_eq_true, if_false] at hm
      exact hm
    rw [backward_eq_findFi (k := k) [cur]
      (by
        intro x hx
        rcases List.mem_cons.mp hx with rfl | hx'
        · exact hcurk
        · exact absurd hx' (List.not_mem_nil x))
      (fun x hx => huni x (List.take_subset _ _ (List.mem_reverse.mp hx)))] at hfm
    simp only [List.length_singleton] at hfm
    cases hfi : findFi 1 ((((scanAllBrackets doc).take ci).reverse).map flipRole) with
    | none => rw [hfi] at hfm; exact Option.noConfusion hfm
    | some d =>
      rw [hfi] at hfm
      have hfmd : (((scanAllBrackets doc).take ci).reverse)[d]? = some m := hfm
      have htclen : ((scanAllBrackets doc).take ci).length = ci := by
        rw [List.length_take]
        omega
      have hdci : d < ci := by
        by_contra hge
        rw [List.getElem?_eq_none (by rw [List.length_reverse, htclen]; omega)] at hfmd
        exact Option.noConfusion hfmd
      have hi' : (scanAllBrackets doc)[ci - 1 - d]? = some m := by
        rw [List.getElem?_reverse (by rw [htclen]; omega)] at hfmd
        rw [htclen, List.getElem?_take, if_pos (by omega)] at hfmd
        exact hfmd
      have hMo : M.opening.startLine = m.line := by
        rw [hMdef]
        simp [hop, createBracketRange_startLine]
      have hMc : M.closing.startLine = cur.line := by
        rw [hMdef]
        simp [hop, createBracketRange_startLine]
      rcases hline with hql | hql
      · rw [hql, hMo]
        apply core_eq_some_iff.mpr
        refine ⟨ci - 1 - d, m, cur, findBracketIdx_of_pairwise hpw hi', hi', ?_, ?_⟩
        · simp only [findMatchingBracket, hi', hmopen, if_true]
          rw [forward_eq_findFi (k := k) [m]
            (by
              intro x hx
              rcases List.mem_cons.mp hx with rfl | hx'
              · exact huni x (List.getElem?_mem hi')
              · exact absurd hx' (List.not_mem_nil x))
            (fun x hx => huni x (List.drop_subset _ _ hx))]
          simp only [List.length_singleton]
          have hseg :
              (((((scanAllBrackets doc).take ci).reverse.map flipRole).take d).reverse).map
                  flipRole
                = ((scanAllBrackets doc).drop (ci - 1 - d + 1)).take d := by
            have hff : flipRole ∘ flipRole = id := funext flipRole_flipRole
            rw [← List.map_take, ← List.map_reverse, List.map_map, hff, List.map_id]
            rw [reverse_take_eq, List.reverse_reverse, htclen]
            rw [List.drop_take]
            have h1 : ci - (ci - d) = d := by omega
            have h2 : ci - d = ci - 1 - d + 1 := by omega
            rw [h1, h2]
          have hdropsplit : (scanAllBrackets doc).drop (ci - 1 - d + 1)
              = ((scanAllBrackets doc).drop (ci - 1 - d + 1)).take d
                ++ cur :: (scanAllBrackets doc).drop (ci + 1) := by
            conv_lhs => rw [← List.take_append_drop d
              ((scanAllBrackets doc).drop (ci - 1 - d + 1))]
            congr 1
            rw [List.drop_drop]
            have hci : ci - 1 - d + 1 + d = ci := by omega
            rw [hci, List.drop_eq_getElem_cons hcil]
            have hcurget : (scanAllBrackets doc)[ci] = cur := by
              have := List.getElem?_eq_getElem hcil
              rw [hcur] at this
              exact (Option.some_inj.mp this).symm
            rw [hcurget]
          have hfi' : findFi 1 ((scanAllBrackets doc).drop (ci - 1 - d + 1))
              = some d := by
            rw [hdropsplit, ← hseg]
            exact findFi_one_rev hfi cur hop ((scanAllBrackets doc).drop (ci + 1))
          rw [hfi']
          show ((scanAllBrackets doc).drop (ci - 1 - d + 1))[d]? = some cur
          rw [hdropsplit, List.getElem?_append]
          have hseglen : (((scanAllBrackets doc).drop (ci - 1 - d + 1)).take d).length
              = d := by
            rw [List.length_take, List.length_drop]
            omega
          rw [if_neg (by omega), hseglen]
          simp
        · rw [hMdef]
          simp [hop, hmopen, hmc]
      · rw [hql, hMc, hcurline]
        exact hpc

/-- C1 witness: on the uniform two-colon nested document, the match obtained
by querying line 1 is reproduced by querying line 3, its closing
delimiter. -/
theorem symmetry_of_uniform_colon_counts_witness :
    findMatchingBrackets (mkDoc ["::outer", "::inner", "content", "::", "::"])
      ⟨3, 0⟩ = some ⟨⟨1, 0, 1, 7⟩, ⟨3, 0, 3, 2⟩, 2⟩ :=
  symmetry_of_uniform_colon_counts
    (mkDoc ["::outer", "::inner", "content", "::", "::"]) ⟨1, 0⟩ ⟨3, 0⟩ 2
    ⟨⟨1, 0, 1, 7⟩, ⟨3, 0, 3, 2⟩, 2⟩ (by decide) (by decide) (by decide)
    (Or.inr (by decide))

end MonarchMdc
